import Mathlib

/-!
Verification of the lexical-scanner tooling of this repository: the
comment/string line scanner (`remove_inline_comments.py`,
`scan_remaining_comments.py`), the brace-depth method-span analysis
(`analyze_method_length_simple.py`), and the documentation-insertion pass
(`add_missing_jsdoc.py`).

Python strings are modelled as `List Char`; a file is a `List (List Char)`
(the result of `content.split('\n')`).  All definitions are direct
translations of the Python source; definitions whose name starts with
`spec` instead follow the specification's words and exist only to be
compared with the code-derived definitions.
-/

namespace Join

/-- Characters of a string literal, the representation used for Python `str`. -/
def cs (s : String) : List Char := s.data

/-- The single-quote character (avoids an apostrophe literal in the file). -/
def sq : Char := Char.ofNat 39

/-- The backtick character. -/
def bq : Char := Char.ofNat 96

/-- The backslash character. -/
def bsl : Char := '\\'

/-- Python `str.isspace` set used by `strip`/`lstrip`/`rstrip` and `\s`
(ASCII portion, which is all that the analyzed sources contain). -/
def isPyWS (c : Char) : Bool :=
  c = ' ' || c = '\t' || c = '\n' || c = '\r' || c = '\x0b' || c = '\x0c'

/-- Python `line.lstrip()`. -/
def lstripL (l : List Char) : List Char := l.dropWhile isPyWS

/-- Python `line.rstrip()`. -/
def rstripL (l : List Char) : List Char := (l.reverse.dropWhile isPyWS).reverse

/-- Python `line.strip()`. -/
def stripL (l : List Char) : List Char := rstripL (lstripL l)

/-- A line whose `strip()` is empty (falsy in the Python sources). -/
def isBlankL (l : List Char) : Bool := (stripL l).isEmpty

/-- Python `s.startswith(p)`: first argument is the pattern. -/
def startsL : List Char → List Char → Bool
  | [], _ => true
  | _ :: _, [] => false
  | p :: ps, c :: rest => p = c && startsL ps rest

/-- Python `s.endswith(p)`. -/
def endsL (p l : List Char) : Bool := startsL p.reverse l.reverse

/-- Index of the first occurrence of `sub` in the list (Python `str.find`
restricted to non-negative results), counting from `i`. -/
def firstSubIdxAux (sub : List Char) : Nat → List Char → Option Nat
  | i, [] => if sub.isEmpty then some i else none
  | i, c :: rest =>
    if startsL sub (c :: rest) then some i else firstSubIdxAux sub (i + 1) rest

/-- Index of the first occurrence of `sub` in `l`. -/
def firstSubIdx (sub l : List Char) : Option Nat := firstSubIdxAux sub 0 l

/-- Python `sub in l` (substring containment). -/
def containsL (sub l : List Char) : Bool := (firstSubIdx sub l).isSome

/-- Index of the last occurrence of `sub` in the list.  For the patterns used
by the sources (two distinct characters) occurrences cannot overlap, so this
coincides with the final piece boundary of Python `str.split`. -/
def lastSubIdxAux (sub : List Char) : Nat → Option Nat → List Char → Option Nat
  | _, best, [] => best
  | i, best, c :: rest =>
    lastSubIdxAux sub (i + 1)
      (if startsL sub (c :: rest) then some i else best) rest

/-- Index of the last occurrence of `sub` in `l`. -/
def lastSubIdx (sub l : List Char) : Option Nat := lastSubIdxAux sub 0 none l

/-- Python `l.split(sub)[0]`: the text before the first occurrence of `sub`
(the whole string when `sub` does not occur). -/
def beforeFirstSub (sub l : List Char) : List Char :=
  match firstSubIdx sub l with
  | some i => l.take i
  | none => l

/-- Python `l.split(sub)[-1]`: the text after the last occurrence of `sub`
(the whole string when `sub` does not occur). -/
def afterLastSub (sub l : List Char) : List Char :=
  match lastSubIdx sub l with
  | some i => l.drop (i + sub.length)
  | none => l

/-- Python `l.split(sep)` for a single-character separator. -/
def splitOnChar (sep : Char) : List Char → List (List Char)
  | [] => [[]]
  | c :: rest =>
    let r := splitOnChar sep rest
    if c = sep then [] :: r
    else
      match r with
      | [] => [[c]]
      | h :: t => (c :: h) :: t

/-- The quote characters recognized by the sources. -/
def isQuoteC (c : Char) : Bool := c = '"' || c = sq || c = bq

/-- One step of the per-line string-mode tracking used by the `//` scan of
`remove_inline_comments.py` and `scan_remaining_comments.py` (and by the
specification's scan state machine): a quote opens string mode, the same
quote not preceded by a backslash closes it.  `prev` is the previous
character of the scan (`none` at position 0). -/
def quoteStepC (st : Option Char) (prev : Option Char) (c : Char) : Option Char :=
  match st with
  | none => if isQuoteC c then some c else none
  | some q => if c = q && prev ≠ some bsl then none else some q

/-- String-mode state after scanning a list of characters from state `st`
with previous character `prev`. -/
def quoteScanGo : Option Char → Option Char → List Char → Option Char
  | st, _, [] => st
  | st, prev, c :: rest => quoteScanGo (quoteStepC st prev c) (some c) rest

/-- String-mode state of a single line just before position `j`
(`none` = outside any string literal opened on this line). -/
def quoteStateAt (l : List Char) (j : Nat) : Option Char := quoteScanGo none none (l.take j)

/-- The character-by-character scan of `remove_inline_comments.py`
lines 79–95 (identically `scan_remaining_comments.py` lines 72–88):
walk the line tracking string mode and return the index of the first `//`
that occurs outside a string, or `none`.  `st` is `quote_char` (string mode),
`prev` the previous character, `i` the current index. -/
def findCIAux : Option Char → Option Char → Nat → List Char → Option Nat
  | _, _, _, [] => none
  | st, prev, i, c :: rest =>
    if st = none ∧ isQuoteC c then
      findCIAux (some c) (some c) (i + 1) rest
    else if st = some c ∧ (i = 0 ∨ prev ≠ some bsl) then
      findCIAux none (some c) (i + 1) rest
    else if st = none ∧ c = '/' ∧ rest.head? = some '/' then
      some i
    else
      findCIAux st (some c) (i + 1) rest

/-- The `comment_index` of the `//` scan (`-1` is modelled as `none`). -/
def findCommentIndex (l : List Char) : Option Nat := findCIAux none none 0 l

/-!  ## `remove_inline_comments.py` -/

/-- Mutable state of the line loop of `remove_inline_comments` :
`in_jsdoc`, `in_multiline_comment`, `modified_lines`, `changes_made`. -/
structure RState where
  inJsdoc : Bool
  inMlc : Bool
  acc : List (List Char)
  changes : Nat
deriving DecidableEq

/-- Initial state of the loop. -/
def rInit : RState := ⟨false, false, [], 0⟩

/-- The non-JSDoc `/*` block of the loop (`remove_inline_comments.py`
lines 41–51): the rewritten line (text before the first `/*`, plus the
text after the last `*/` when one closes on the same line) and the new
`in_multiline_comment` flag. -/
def handleBlockCommentStart (line : List Char) : List Char × Bool :=
  let before := beforeFirstSub (cs "/*") line
  if containsL (cs "*/") line then (before ++ afterLastSub (cs "*/") line, false)
  else (before, true)

/-- The `//`-handling block of the loop (`remove_inline_comments.py`
lines 71–100): the possibly truncated line and the updated change count. -/
def handleLineComment (line : List Char) (changes : Nat) : List Char × Nat :=
  if containsL (cs "//") line then
    match findCommentIndex line with
    | some ci =>
      (rstripL (line.take ci),
       if stripL line ≠ stripL (rstripL (line.take ci)) then changes + 1
       else changes)
    | none => (line, changes)
  else (line, changes)

/-- Body of the `for line in lines` loop of `remove_inline_comments`
(`remove_inline_comments.py` lines 20–106). -/
def processRemLine (st : RState) (line : List Char) : RState :=
  let s := stripL line
  if startsL (cs "/**") s then
    { st with inJsdoc := true, acc := st.acc ++ [line] }
  else if st.inJsdoc && (endsL (cs "*/") s || s = cs "*/") then
    { st with inJsdoc := false, acc := st.acc ++ [line] }
  else if st.inJsdoc then
    { st with acc := st.acc ++ [line] }
  else if containsL (cs "/*") line && !startsL (cs "/**") s then
    let q := handleBlockCommentStart line
    let acc2 := if !(stripL q.1).isEmpty then st.acc ++ [rstripL q.1] else st.acc
    let ch2 := if line ≠ rstripL q.1 then st.changes + 1 else st.changes
    { st with inMlc := q.2, acc := acc2, changes := ch2 }
  else if st.inMlc then
    if containsL (cs "*/") line then
      let after := afterLastSub (cs "*/") line
      let acc2 := if !(stripL after).isEmpty then st.acc ++ [rstripL after] else st.acc
      { st with inMlc := false, acc := acc2, changes := st.changes + 1 }
    else
      { st with changes := st.changes + 1 }
  else
    let p := handleLineComment line st.changes
    let line2 := p.1
    let ch2 := p.2
    if !(stripL line2).isEmpty then
      { st with acc := st.acc ++ [line2], changes := ch2 }
    else if st.acc ≠ [] && !(stripL (st.acc.getLastD [])).isEmpty then
      { st with acc := st.acc ++ [line2], changes := ch2 }
    else if !(stripL line).isEmpty && (stripL line2).isEmpty then
      { st with changes := ch2 + 1 }
    else
      { st with changes := ch2 }

/-- From `remove_inline_comments.py` lines 109–110: drop trailing blank lines. -/
def popTrailingBlanks (l : List (List Char)) : List (List Char) :=
  (l.reverse.dropWhile isBlankL).reverse

/-- The full line-rewriting pass of `remove_inline_comments`
(`remove_inline_comments.py` lines 13–115): run the loop over all lines,
drop trailing blank lines, and append one final empty line when any line
remains.  The result is `modified_lines`, whose newline-join is the
rewritten file text (the file-system write itself is excluded I/O). -/
def removeInlineComments (lines : List (List Char)) : List (List Char) :=
  let st := lines.foldl processRemLine rInit
  let m := popTrailingBlanks st.acc
  if m ≠ [] then m ++ [[]] else m

/-- Same pass, also returning `changes_made`. -/
def removeInlineCommentsCount (lines : List (List Char)) : Nat :=
  (lines.foldl processRemLine rInit).changes

/-!  ## `scan_remaining_comments.py` -/

/-- The `single_line` record produced by `find_inline_comments`
(`scan_remaining_comments.py` lines 90–99): for a line whose string-aware
scan finds a `//`, the pair `(code_before, content)`, both
whitespace-stripped by the source. -/
def singleLineSplit (l : List Char) : Option (List Char × List Char) :=
  match findCommentIndex l with
  | some i => some (stripL (l.take i), stripL (l.drop i))
  | none => none

/-!  ## `analyze_method_length_simple.py` -/

/-- Regex word characters (`\w`, ASCII portion). -/
def isWordCharC (c : Char) : Bool := c.isAlphanum || c = '_'

/-- Whether the suffix `l` begins with a `\w+` run that, after optional
whitespace, is followed by `(`; if so return the run.  This is one
candidate position of `re.search` for the pattern `(\w+)\s*\(`; shortening
the greedy `\w+` run can never help (the next character would be a word
character, not whitespace or `(`), so no backtracking case is lost. -/
def matchWordParen (l : List Char) : Option (List Char) :=
  let w := l.takeWhile isWordCharC
  if w.isEmpty then none
  else if ((l.dropWhile isWordCharC).dropWhile isPyWS).head? = some '(' then some w
  else none

/-- Python `re.search` for `(\w+)\s*\(`: leftmost match wins. -/
def firstWordParen : List Char → Option (List Char)
  | [] => none
  | c :: rest =>
    match matchWordParen (c :: rest) with
    | some w => some w
    | none => firstWordParen rest

/-- Function `extract_method_name` (`analyze_method_length_simple.py` lines 133–161).
The first regex of the pattern list, `(\w+)\s*\(`, matches whenever any of
the later patterns do, so only it is consulted. -/
def extractMethodName (ml : List Char) : Option (List Char) :=
  if startsL (cs "constructor") ml then some (cs "constructor")
  else if startsL (cs "ngOnInit") ml then some (cs "ngOnInit")
  else if startsL (cs "ngOnDestroy") ml then some (cs "ngOnDestroy")
  else if startsL (cs "ngOnChanges") ml then some (cs "ngOnChanges")
  else if startsL (cs "ngAfterViewInit") ml then some (cs "ngAfterViewInit")
  else firstWordParen ml

/-- The brace-depth contribution of one raw line:
`line.count('{') - line.count('}')` (`analyze_method_length_simple.py`
lines 94–100). -/
def braceDelta (l : List Char) : Int :=
  (l.count '{' : Int) - (l.count '}' : Int)

/-- The record returned by `analyze_method_from_line` (line numbers are
1-based as in the source). -/
structure MethodInfo where
  methodName : List Char
  startLine : Nat
  endLine : Nat
  totalLines : Nat
  codeLines : Nat
  declaration : List Char
deriving DecidableEq

/-- The "actual code line" test of `analyze_method_from_line` lines 106–111
(argument is the stripped line). -/
def isCodeLine (s : List Char) : Bool :=
  !s.isEmpty && !startsL (cs "//") s && !startsL (cs "*") s &&
    !startsL (cs "/*") s && s ≠ cs "\x7b" && s ≠ cs "\x7d"

/-- The `while i < len(lines)` loop of `analyze_method_from_line`
(`analyze_method_length_simple.py` lines 88–126).  `fuel` only bounds the
recursion; the loop exits through `lines.get? i = none` (the Python
bound `i < len(lines)`), and every caller passes `fuel = lines.length`,
which the monotonically increasing `i` can never outrun. -/
def amflLoop (lines : List (List Char)) (startL : Nat) (mname mline : List Char) :
    Nat → Nat → Int → Bool → Nat → Nat → Option MethodInfo
  | 0, _, _, _, _, _ => none
  | fuel + 1, i, bc, started, total, code =>
    match lines.get? i with
    | none => none
    | some line =>
      let s := stripL line
      let ob : Nat := line.count '{'
      let cb : Nat := line.count '}'
      let started2 := started || decide (0 < ob)
      let bc2 := bc + (ob : Int) - (cb : Int)
      let total2 := total + 1
      let code2 := if started2 && isCodeLine s then code + 1 else code
      if started2 && decide (bc2 ≤ 0) then
        some ⟨mname, startL + 1, i + 1, total2, code2, mline⟩
      else
        amflLoop lines startL mname mline fuel (i + 1) bc2 started2 total2 code2

/-- Function `analyze_method_from_line` (`analyze_method_length_simple.py`
lines 72–131); an out-of-range start line or a failed name extraction is
the `return None` / exception-absorbing path of the source. -/
def analyzeMethodFromLine (lines : List (List Char)) (startLine : Nat) :
    Option MethodInfo :=
  match lines.get? startLine with
  | none => none
  | some l0 =>
    let ml := stripL l0
    match extractMethodName ml with
    | none => none
    | some nm => amflLoop lines startLine nm ml lines.length startLine 0 false 0 0

/-- The skip test of `analyze_method_length` lines 22–31 (argument is the
stripped line). -/
def skipCond (s : List Char) : Bool :=
  s.isEmpty || startsL (cs "//") s || startsL (cs "*") s || startsL (cs "/*") s ||
    startsL (cs "export ") s || startsL (cs "import ") s || startsL (cs "@") s ||
    containsL (cs "interface") s || containsL (cs "enum") s ||
    (startsL (cs "class ") s && containsL (cs "\x7b") s)

/-- Function `is_method_declaration` (`analyze_method_length_simple.py` lines 50–70). -/
def isMethodDeclaration (s : List Char) (lines : List (List Char)) (i : Nat) : Bool :=
  startsL (cs "constructor") s ||
    (s.contains '(' && s.contains ')' &&
      ((s.contains ':' &&
          (s.contains '{' ||
            (match lines.get? (i + 1) with
             | some nl => stripL nl = cs "\x7b"
             | none => false))) ||
        startsL (cs "async ") s)) ||
    startsL (cs "ngOnInit") s || startsL (cs "ngOnDestroy") s ||
    startsL (cs "ngOnChanges") s || startsL (cs "ngAfterViewInit") s

/-- The `while i < len(lines)` driver loop of `analyze_method_length`
(`analyze_method_length_simple.py` lines 16–43).  As in `amflLoop`, `fuel`
only bounds the recursion: `i` strictly increases each iteration
(`end_line` of a returned record exceeds the start index), so
`fuel = lines.length` never runs out before `i` reaches the length. -/
def amlLoop (lines : List (List Char)) : Nat → Nat → List MethodInfo → List MethodInfo
  | 0, _, acc => acc
  | fuel + 1, i, acc =>
    match lines.get? i with
    | none => acc
    | some line =>
      let s := stripL line
      if skipCond s then amlLoop lines fuel (i + 1) acc
      else if isMethodDeclaration s lines i then
        match analyzeMethodFromLine lines i with
        | some mi =>
          amlLoop lines fuel mi.endLine (if 14 < mi.codeLines then acc ++ [mi] else acc)
        | none => amlLoop lines fuel (i + 1) acc
      else amlLoop lines fuel (i + 1) acc

/-- Function `analyze_method_length` on in-memory lines (file I/O excluded): the
list of long methods (`code_lines > 14`) found in the file. -/
def analyzeMethodLength (lines : List (List Char)) : List MethodInfo :=
  amlLoop lines lines.length 0 []

/-!  Depth bookkeeping used to state the span-boundary claims. -/

/-- Sum of `braceDelta` over `n` lines starting at index `i`. -/
def sumDeltaGo (lines : List (List Char)) : Nat → Nat → Int
  | _, 0 => 0
  | i, n + 1 => braceDelta (lines.getD i []) + sumDeltaGo lines (i + 1) n

/-- Cumulative brace depth after the code has consumed lines `i..j`
(inclusive), counted from depth 0 before line `i`. -/
def cumD (lines : List (List Char)) (i j : Nat) : Int :=
  sumDeltaGo lines i (j + 1 - i)

/-- Whether any of the `n` lines starting at `i` contains `{`. -/
def anyOpenGo (lines : List (List Char)) : Nat → Nat → Bool
  | _, 0 => false
  | i, n + 1 =>
    decide (0 < (lines.getD i []).count '{') || anyOpenGo lines (i + 1) n

/-- Whether some line in `i..j` (inclusive) contains `{`: this is exactly
when `method_started` is set by the time line `j` has been consumed. -/
def anyOpenB (lines : List (List Char)) (i j : Nat) : Bool :=
  anyOpenGo lines i (j + 1 - i)

/-!  ## `add_missing_jsdoc.py` -/

/-- Largest index `j < i` whose line strips non-empty
(`add_missing_jsdoc.py` lines 25–27, walking `prev_line_idx` upward past
blank lines); `none` models `prev_line_idx < 0`. -/
def prevNonEmpty (lines : List (List Char)) : Nat → Option Nat
  | 0 => none
  | j + 1 =>
    if !(stripL (lines.getD j [])).isEmpty then some j else prevNonEmpty lines j

/-- Walk upward from `j - 1` past lines whose stripped text starts with `*`
(`add_missing_jsdoc.py` lines 34–36); returns the first index that does
not, or `none` when the walk runs off the top. -/
def skipStars (lines : List (List Char)) : Nat → Option Nat
  | 0 => none
  | j + 1 =>
    if startsL (cs "*") (stripL (lines.getD j [])) then skipStars lines j else some j

/-- The "already documented" test of `add_basic_jsdoc`
(`add_missing_jsdoc.py` lines 24–38, identically `analyze_missing_jsdoc.py`
lines 40–54): the nearest non-blank line above must start with `*/`, and
above the `*`-lines must sit a line starting with `/**`. -/
def hasJsdocAbove (lines : List (List Char)) (i : Nat) : Bool :=
  match prevNonEmpty lines i with
  | none => false
  | some p =>
    let s := stripL (lines.getD p [])
    if s = cs "*/" || startsL (cs "*/") s then
      match skipStars lines p with
      | none => false
      | some j => startsL (cs "/**") (stripL (lines.getD j []))
    else false

/-- Function `should_add_jsdoc` (`add_missing_jsdoc.py` lines 66–92); argument `s`
is the stripped line. -/
def shouldAddJsdoc (s : List Char) (lines : List (List Char)) (i : Nat) : Bool :=
  if s.isEmpty || startsL (cs "//") s || startsL (cs "*") s || startsL (cs "/*") s ||
      startsL (cs "constructor") s || startsL (cs "get ") s || startsL (cs "set ") s ||
      (s.takeWhile (· ≠ '(')).contains '=' ||
      startsL (cs "export ") s || startsL (cs "@") s ||
      containsL (cs "interface") s || containsL (cs "class") s ||
      containsL (cs "enum") s ||
      startsL (cs "\x7d catch") s || startsL (cs "catch") s then
    false
  else
    (s.contains '(' && s.contains ')' && s.contains ':' &&
        (endsL (cs "\x7b") s ||
          (match lines.get? (i + 1) with
           | some nl => stripL nl = cs "\x7b"
           | none => false))) ||
      (startsL (cs "async ") s && s.contains '(' && s.contains ')') ||
      startsL (cs "ngOnInit") s || startsL (cs "ngOnDestroy") s ||
      startsL (cs "ngOnChanges") s

/-- Python `re.search` for the pattern `\(([^)]*)\)`, group 1: the text between the first `(`
and the first `)` after it, `none` when the pattern cannot match (no `)`
follows the first `(`, in which case no later `(` has one either). -/
def parenContent (l : List Char) : Option (List Char) :=
  match l.dropWhile (· ≠ '(') with
  | [] => none
  | _ :: rest => if rest.contains ')' then some (rest.takeWhile (· ≠ ')')) else none

/-- Parameter-name extraction of `generate_jsdoc_comment`
(`add_missing_jsdoc.py` lines 105–116): split the parenthesized text on
commas, keep segments with a `:`, take the stripped text before the first
colon, drop variadic names. -/
def extractParams (ml : List Char) : List (List Char) :=
  match parenContent ml with
  | none => []
  | some inner =>
    let ps := stripL inner
    if ps.isEmpty then []
    else
      (splitOnChar ',' ps).foldl
        (fun acc seg =>
          let seg2 := stripL seg
          if !seg2.isEmpty && seg2.contains ':' then
            let n := stripL (seg2.takeWhile (· ≠ ':'))
            if !n.isEmpty && !startsL (cs "...") n then acc ++ [n] else acc
          else acc)
        []

/-- Python `re.search` for the pattern `\):\s*([^\x7b]+)`: scan for a `):` occurrence at
which the rest of the pattern can match; return the group.  The group is
returned already trimmed of the whitespace the `\s*` part may leave behind,
which is harmless because the caller immediately applies `strip()`. -/
def retSearchAux : List Char → Option (List Char)
  | [] => none
  | [_] => none
  | c1 :: c2 :: rest =>
    if c1 = ')' ∧ c2 = ':' then
      if rest ≠ [] ∧ rest.head? ≠ some '{' then
        some
          (let t := rest.dropWhile isPyWS
           if t.head? = some '{' ∨ t = [] then [] else t.takeWhile (· ≠ '{'))
      else retSearchAux (c2 :: rest)
    else retSearchAux (c2 :: rest)

/-- Return-type extraction of `generate_jsdoc_comment`
(`add_missing_jsdoc.py` lines 119–120): the stripped regex group, or
`void` when the regex does not match. -/
def extractReturnType (ml : List Char) : List Char :=
  match retSearchAux ml with
  | some g => stripL g
  | none => cs "void"

/-- Character-wise lower-casing (Python `str.lower`, ASCII portion). -/
def lowerL (l : List Char) : List Char := l.map Char.toLower

/-- Python `str.capitalize`: first character upper-cased, rest lower-cased. -/
def capitalizePy : List Char → List Char
  | [] => []
  | c :: rest => Char.toUpper c :: lowerL rest

/-- Function `generate_description` (`add_missing_jsdoc.py` lines 153–200). -/
def generateDescription (n : List Char) : List Char :=
  if startsL (cs "ng") n then
    if n = cs "ngOnInit" then cs "Angular lifecycle hook - component initialization."
    else if n = cs "ngOnDestroy" then cs "Angular lifecycle hook - component cleanup."
    else if n = cs "ngOnChanges" then cs "Angular lifecycle hook - handles input changes."
    else cs "Angular lifecycle hook - " ++ n ++ cs "."
  else if startsL (cs "on") n then cs "Handles " ++ lowerL (n.drop 2) ++ cs " events."
  else if startsL (cs "get") n then cs "Gets " ++ lowerL (n.drop 3) ++ cs " value."
  else if startsL (cs "set") n then cs "Sets " ++ lowerL (n.drop 3) ++ cs " value."
  else if startsL (cs "is") n || startsL (cs "has") n then
    cs "Checks if " ++ lowerL (n.drop 2) ++ cs "."
  else if startsL (cs "toggle") n then cs "Toggles " ++ lowerL (n.drop 6) ++ cs " state."
  else if startsL (cs "create") n then cs "Creates " ++ lowerL (n.drop 6) ++ cs "."
  else if startsL (cs "update") n then cs "Updates " ++ lowerL (n.drop 6) ++ cs "."
  else if startsL (cs "delete") n || startsL (cs "remove") n then
    cs "Deletes " ++ lowerL (n.drop 6) ++ cs "."
  else if startsL (cs "validate") n then cs "Validates " ++ lowerL (n.drop 8) ++ cs "."
  else if startsL (cs "handle") n then cs "Handles " ++ lowerL (n.drop 6) ++ cs "."
  else if startsL (cs "process") n then cs "Processes " ++ lowerL (n.drop 7) ++ cs "."
  else cs "Handles " ++ n ++ cs " functionality."

/-- The `@returns` line of `generate_jsdoc_comment`
(`add_missing_jsdoc.py` lines 134–144). -/
def returnTag (rt : List Char) : List Char :=
  if containsL (cs "Promise") rt then
    cs " * @returns Promise that resolves when operation completes"
  else if containsL (cs "boolean") rt then cs " * @returns Boolean result"
  else if containsL (cs "string") rt then cs " * @returns String result"
  else if containsL (cs "number") rt then cs " * @returns Numeric result"
  else cs " * @returns " ++ rt

/-- Function `generate_jsdoc_comment` (`add_missing_jsdoc.py` lines 94–151):
the generated block as a list of lines, `none` when no method name can be
extracted. -/
def generateJsdocComment (ml : List Char) : Option (List (List Char)) :=
  match firstWordParen ml with
  | none => none
  | some nm =>
    let params := extractParams ml
    let rt := extractReturnType ml
    some
      ([cs "/**", cs " * " ++ generateDescription nm] ++
        params.map (fun p => cs " * @param " ++ p ++ cs " - " ++ capitalizePy p ++ cs " parameter") ++
        (if rt ≠ cs "void" ∧ rt ≠ [] then [returnTag rt] else []) ++
        [cs " */"])

/-- The `while i < len(lines)` loop of `add_basic_jsdoc`
(`add_missing_jsdoc.py` lines 17–51), accumulating `modified_lines` and
`changes_made`.  `i` increases by exactly one per iteration, so
`fuel = lines.length` makes the `lines.get? i` test the real exit,
mirroring `i < len(lines)`. -/
def jloop (lines : List (List Char)) :
    Nat → Nat → List (List Char) → Nat → List (List Char) × Nat
  | 0, _, acc, ch => (acc, ch)
  | fuel + 1, i, acc, ch =>
    match lines.get? i with
    | none => (acc, ch)
    | some line =>
      let s := stripL line
      let p :=
        if shouldAddJsdoc s lines i && !hasJsdocAbove lines i then
          match generateJsdocComment s with
          | some jd => (acc ++ jd.map (fun jl => line.takeWhile isPyWS ++ jl), ch + 1)
          | none => (acc, ch)
        else (acc, ch)
      jloop lines fuel (i + 1) (p.1 ++ [line]) p.2

/-- Function `add_basic_jsdoc` on in-memory lines (file I/O excluded): the modified
lines and the number of inserted blocks. -/
def addBasicJsdoc (lines : List (List Char)) : List (List Char) × Nat :=
  jloop lines lines.length 0 [] 0

/-!  ## Specification-side definitions (for refinement comparisons only) -/

/-- Follows the specification's words, not the code: the smallest character
index at which one of the markers `/**`, `/*`, `//` occurs on the line
("the earliest of these three markers (by character index) wins"). -/
def specEarliestMarker (l : List Char) : Option Nat :=
  let m := fun (a b : Option Nat) =>
    match a, b with
    | none, b => b
    | a, none => a
    | some x, some y => some (min x y)
  m (firstSubIdx (cs "/**") l) (m (firstSubIdx (cs "/*") l) (firstSubIdx (cs "//") l))

/-- Follows the claim's words, not the code: the declaration at line `i`
"already has a doc comment block (`/** ... */`) immediately above it
(possibly separated by blank lines)" — the nearest non-blank line above
ends with `*/` and some line at or above it starts with `/**`. -/
def specDocAbove (lines : List (List Char)) (i : Nat) : Bool :=
  match prevNonEmpty lines i with
  | none => false
  | some j =>
    endsL (cs "*/") (stripL (lines.getD j [])) &&
      (List.range (j + 1)).any (fun j0 => startsL (cs "/**") (stripL (lines.getD j0 [])))

/-- Per-position split of a line's brace count by the string-mode
classification of `quoteStepC`: first component counts `{`/`}` at positions
outside any string literal of the line, second component counts those
inside.  Used to state what the code's raw `braceDelta` actually counts. -/
def braceSplitGo : Option Char → Option Char → List Char → Int × Int
  | _, _, [] => (0, 0)
  | st, prev, c :: rest =>
    let contrib : Int := if c = '{' then 1 else if c = '}' then -1 else 0
    let r := braceSplitGo (quoteStepC st prev c) (some c) rest
    if st = none then (contrib + r.1, r.2) else (r.1, contrib + r.2)

/-- Brace contribution of a line split into (outside-string, inside-string)
components. -/
def braceSplitDelta (l : List Char) : Int × Int := braceSplitGo none none l

/-- No two adjacent blank lines occur in a list of output lines (the
normalization property of the rewritten text). -/
def noAdjBlanks : List (List Char) → Bool
  | [] => true
  | [_] => true
  | a :: b :: rest => !(isBlankL a && isBlankL b) && noAdjBlanks (b :: rest)

/-!  ## Concrete test inputs used by witnesses and counterexamples -/

/-- Single-line scenario of the specification (`function foo...`), with the
braces written as escapes. -/
def fooLine : List Char :=
  cs "function foo(a: string, b: number): boolean \x7b return a.length > b; \x7d"

/-- The specification's string scenario line. -/
def urlLine : List Char := cs "const s = \"http://example.com\"; // real comment"

/-- A method body containing a close brace inside a string literal. -/
def stringBraceFile : List (List Char) :=
  [cs "function f(): void \x7b", cs "  const s = \"\x7d\";", cs "  return;", cs "\x7d"]

/-- A declaration whose body contains a nested `if` block. -/
def nestedBraceFile : List (List Char) :=
  [cs "function f(): void \x7b", cs "  if (x) \x7b", cs "    y();", cs "  \x7d", cs "\x7d"]

/-- A declaration whose braces never re-balance, followed by a balanced one. -/
def unbalancedFile : List (List Char) :=
  [cs "function f(): void \x7b", cs "function g(): void \x7b", cs "\x7d"]

/-- A declaration with a one-line doc block directly above it. -/
def oneLineDocFile : List (List Char) :=
  [cs "/** Does x */", cs "doIt(a: number): void \x7b", cs "\x7d"]

/-- A declaration with a conventional multi-line doc block above it. -/
def multiLineDocFile : List (List Char) :=
  [cs "/**", cs " * Does x.", cs " */", cs "doIt(a: number): void \x7b", cs "\x7d"]

/-- A comment-free file with repeated blank lines. -/
def blankRunsFile : List (List Char) :=
  [cs "a", cs "", cs "", cs "b", cs "", cs ""]

end Join

namespace Join

/-!  # Theorems -/

/-- Full specification of the string-aware `//` scan: when it reports index
`j`, then (relative to the consumed position `i`) the characters at `j` are
`//` and the string-mode state accumulated up to `j` is `none` (outside any
string).  The hypothesis `i = 0 → prev = none` holds for every reachable
invocation. -/
theorem findCIAux_spec :
    ∀ (rem : List Char) (st prev : Option Char) (i j : Nat),
      (i = 0 → prev = none) → findCIAux st prev i rem = some j →
      i ≤ j ∧ rem.get? (j - i) = some '/' ∧ rem.get? (j - i + 1) = some '/' ∧
        quoteScanGo st prev (rem.take (j - i)) = none := by
  intro rem
  induction rem with
  | nil =>
    intro st prev i j _ h
    simp [findCIAux] at h
  | cons c rest ih =>
    intro st prev i j hprev h
    rw [show findCIAux st prev i (c :: rest) =
        (if st = none ∧ isQuoteC c then findCIAux (some c) (some c) (i + 1) rest
         else if st = some c ∧ (i = 0 ∨ prev ≠ some bsl) then
           findCIAux none (some c) (i + 1) rest
         else if st = none ∧ c = '/' ∧ rest.head? = some '/' then some i
         else findCIAux st (some c) (i + 1) rest) from rfl] at h
    by_cases h1 : st = none ∧ isQuoteC c
    · rw [if_pos h1] at h
      obtain ⟨hle, hg1, hg2, hsc⟩ :=
        ih (some c) (some c) (i + 1) j (by omega) h
      have hji : j - i = (j - (i + 1)) + 1 := by omega
      refine ⟨by omega, ?_, ?_, ?_⟩
      · rw [hji]; simpa using hg1
      · rw [hji]; simpa using hg2
      · rw [hji, List.take_succ_cons]
        have hstep : quoteStepC st prev c = some c := by
          simp [quoteStepC, h1.1, h1.2]
        simpa [quoteScanGo, hstep] using hsc
    · rw [if_neg h1] at h
      by_cases h2 : st = some c ∧ (i = 0 ∨ prev ≠ some bsl)
      · rw [if_pos h2] at h
        obtain ⟨hle, hg1, hg2, hsc⟩ :=
          ih none (some c) (i + 1) j (by omega) h
        have hji : j - i = (j - (i + 1)) + 1 := by omega
        have hpb : prev ≠ some bsl := by
          rcases h2.2 with h0 | hb
          · rw [hprev h0]; simp
          · exact hb
        refine ⟨by omega, ?_, ?_, ?_⟩
        · rw [hji]; simpa using hg1
        · rw [hji]; simpa using hg2
        · rw [hji, List.take_succ_cons]
          have hstep : quoteStepC st prev c = none := by
            rw [h2.1]; simp [quoteStepC, hpb]
          simpa [quoteScanGo, hstep] using hsc
      · rw [if_neg h2] at h
        by_cases h3 : st = none ∧ c = '/' ∧ rest.head? = some '/'
        · rw [if_pos h3] at h
          have hij : j = i := by simpa using h.symm
          subst hij
          refine ⟨le_refl _, ?_, ?_, ?_⟩
          · simp only [Nat.sub_self]
            rw [List.get?_zero]
            simp [h3.2.1]
          · simp only [Nat.sub_self]
            rw [List.get?_cons_succ, List.get?_zero]
            exact h3.2.2
          · simp [quoteScanGo, h3.1]
        · rw [if_neg h3] at h
          obtain ⟨hle, hg1, hg2, hsc⟩ :=
            ih st (some c) (i + 1) j (by omega) h
          have hji : j - i = (j - (i + 1)) + 1 := by omega
          have hstep : quoteStepC st prev c = st := by
            match hst : st with
            | none =>
              have : ¬ isQuoteC c = true := by
                intro hq; exact h1 ⟨rfl, hq⟩
              simp [quoteStepC, this]
            | some q =>
              by_cases hcq : c = q
              · subst hcq
                have : ¬(i = 0 ∨ prev ≠ some bsl) := fun hor => h2 ⟨rfl, hor⟩
                push_neg at this
                simp [quoteStepC, this.2]
              · simp [quoteStepC, hcq]
          refine ⟨by omega, ?_, ?_, ?_⟩
          · rw [hji]; simpa using hg1
          · rw [hji]; simpa using hg2
          · rw [hji, List.take_succ_cons]
            simpa [quoteScanGo, hstep] using hsc

/-- Helper: a successful `amflLoop` run returns an `endLine` strictly past
the index it was entered at and no larger than the file length. -/
theorem amflLoop_endLine_bounds (lines : List (List Char)) (startL : Nat)
    (mname mline : List Char) :
    ∀ (fuel i : Nat) (bc : Int) (started : Bool) (total code : Nat) (r : MethodInfo),
      amflLoop lines startL mname mline fuel i bc started total code = some r →
      i < r.endLine ∧ r.endLine ≤ lines.length := by
  intro fuel
  induction fuel with
  | zero => intro i bc started total code r h; simp [amflLoop] at h
  | succ fuel ih =>
    intro i bc started total code r h
    rw [amflLoop] at h
    cases hg : lines.get? i with
    | none => rw [hg] at h; simp at h
    | some line =>
      rw [hg] at h
      simp only at h
      by_cases hguard :
          ((started || decide (0 < line.count '{')) &&
            decide (bc + (line.count '{' : Int) - (line.count '}' : Int) ≤ 0)) = true
      · rw [if_pos hguard] at h
        have hr : r = ⟨mname, startL + 1, i + 1, total + 1,
            if (started || decide (0 < line.count '{')) && isCodeLine (stripL line) then
              code + 1 else code, mline⟩ := by
          exact (Option.some.injEq _ _ ▸ h).symm ▸ rfl
        have hlen : i < lines.length := by
          have := List.get?_eq_some.1 hg
          exact this.1
        constructor
        · rw [hr]; exact Nat.lt_succ_self i
        · rw [hr]; exact hlen
      · rw [if_neg hguard] at h
        have := ih (i + 1) _ _ _ _ r h
        exact ⟨by omega, this.2⟩

/-- Claim C8: the core scans are total and never index out of bounds: the
string-aware comment scan only reports an index at which the line really
holds `//` (in particular `j + 1` is still within the line), and every
method span produced stays within the file (so each line it reads exists).
The embedded operations are total Lean functions mirroring the Python
control flow, with every anomalous case returning `none`/empty output —
including the backslash-escape test, whose index-0 guard is the `i = 0`
disjunct of `findCIAux`. -/
theorem C8_no_out_of_bounds :
    (∀ (l : List Char) (j : Nat), findCommentIndex l = some j →
      l.get? j = some '/' ∧ l.get? (j + 1) = some '/' ∧ j + 1 < l.length) ∧
    (∀ (lines : List (List Char)) (i : Nat) (r : MethodInfo),
      analyzeMethodFromLine lines i = some r →
      i < r.endLine ∧ r.endLine ≤ lines.length) := by
  constructor
  · intro l j h
    obtain ⟨_, hg1, hg2, _⟩ := findCIAux_spec l none none 0 j (fun _ => rfl) h
    simp only [Nat.sub_zero] at hg1 hg2
    have hlt : j + 1 < l.length := by
      have := List.get?_eq_some.1 hg2
      exact this.1
    exact ⟨hg1, hg2, hlt⟩
  · intro lines i r h
    rw [analyzeMethodFromLine] at h
    cases hg : lines.get? i with
    | none => rw [hg] at h; simp at h
    | some l0 =>
      rw [hg] at h
      simp only at h
      cases hn : extractMethodName (stripL l0) with
      | none => rw [hn] at h; simp at h
      | some nm =>
        rw [hn] at h
        exact amflLoop_endLine_bounds lines i nm (stripL l0) lines.length i 0 false 0 0 r h

/-- Witness for C8 at concrete inputs: the scan of `a; // b` reports
index 3, where the line indeed holds `//`, and the single-line `foo`
method span stays within its one-line file. -/
theorem C8_no_out_of_bounds_witness :
    ((cs "a; // b").get? 3 = some '/' ∧ (cs "a; // b").get? (3 + 1) = some '/' ∧
      3 + 1 < (cs "a; // b").length) ∧
    (0 < (1 : Nat) ∧ (1 : Nat) ≤ 1) := by
  constructor
  · exact C8_no_out_of_bounds.1 (cs "a; // b") 3 (by decide)
  · have h := C8_no_out_of_bounds.2 [fooLine] 0 ⟨cs "foo", 1, 1, 1, 1, fooLine⟩ (by decide)
    exact h

/-- Claim C1, amended part that holds: within one line, the `//` chosen by
the string-aware scan always lies outside any string literal opened on that
line, so a `//` strictly inside such a string never truncates the code part
and never begins a single-line comment record. -/
theorem C1_doubleSlash_outside_string :
    ∀ (l : List Char) (j : Nat), findCommentIndex l = some j → quoteStateAt l j = none := by
  intro l j h
  obtain ⟨_, _, _, hsc⟩ := findCIAux_spec l none none 0 j (fun _ => rfl) h
  simpa [quoteStateAt] using hsc

/-- Witness for amended C1: in the specification's scenario line the scan
skips the `//` inside the URL string and reports the real comment at
index 32, which is outside the string. -/
theorem C1_doubleSlash_outside_string_witness :
    findCommentIndex urlLine = some 32 ∧ quoteStateAt urlLine 32 = none :=
  ⟨by decide, C1_doubleSlash_outside_string urlLine 32 (by decide)⟩

/-- Counterexample to C1 as stated.  (a) `/*` is found by plain substring
search, so a `/*` strictly inside an open string literal (position 12 of
`const s = "a/*b";`, where the quote state is open) starts a block comment
and truncates the code part to `const s = "a`.  (b) String state is not
carried across lines: the first line opens a `"` string that never closes,
yet the `//` on the following line is still treated as a comment start and
removed. -/
theorem C1_counterexample :
    (quoteStateAt (cs "const s = \"a/*b\";") 12 = some '"' ∧
      removeInlineComments [cs "const s = \"a/*b\";"] = [cs "const s = \"a", []]) ∧
    (quoteScanGo none none (cs "const s = \"abc") = some '"' ∧
      removeInlineComments [cs "const s = \"abc", cs "x; // y"] =
        [cs "const s = \"abc", cs "x;", []]) := by
  decide


/-- Helper: a line is blank exactly when all its characters are whitespace. -/
theorem isBlankL_iff_all (l : List Char) :
    isBlankL l = true ↔ ∀ c ∈ l, isPyWS c = true := by
  unfold isBlankL stripL rstripL lstripL
  rw [List.isEmpty_iff, List.reverse_eq_nil_iff, List.dropWhile_eq_nil_iff]
  constructor
  · intro h c hc
    have hsplit := List.takeWhile_append_dropWhile (p := isPyWS) (l := l)
    rw [← hsplit] at hc
    rcases List.mem_append.1 hc with h1 | h2
    · exact List.mem_takeWhile_imp h1
    · exact h c (List.mem_reverse.2 h2)
  · intro h c hc
    exact h c ((List.dropWhile_sublist _).subset (List.mem_reverse.1 hc))

/-- Helper: `rstrip` removes a whitespace-only suffix. -/
theorem rstripL_append (l : List Char) :
    ∃ suf, l = rstripL l ++ suf ∧ ∀ c ∈ suf, isPyWS c = true := by
  refine ⟨(l.reverse.takeWhile isPyWS).reverse, ?_, ?_⟩
  · have h := List.takeWhile_append_dropWhile (p := isPyWS) (l := l.reverse)
    calc l = l.reverse.reverse := (List.reverse_reverse l).symm
      _ = (l.reverse.takeWhile isPyWS ++ l.reverse.dropWhile isPyWS).reverse := by rw [h]
      _ = rstripL l ++ (l.reverse.takeWhile isPyWS).reverse := by
          rw [List.reverse_append]; rfl
  · intro c hc
    exact List.mem_takeWhile_imp (List.mem_reverse.1 hc)

/-- Helper: `rstrip` does not change blankness. -/
theorem isBlankL_rstripL (l : List Char) : isBlankL (rstripL l) = isBlankL l := by
  obtain ⟨suf, hdecomp, hsuf⟩ := rstripL_append l
  have hiff : isBlankL (rstripL l) = true ↔ isBlankL l = true := by
    rw [isBlankL_iff_all, isBlankL_iff_all]
    constructor
    · intro h c hc
      rw [hdecomp] at hc
      rcases List.mem_append.1 hc with h1 | h2
      · exact h c h1
      · exact hsuf c h2
    · intro h c hc
      exact h c (by rw [hdecomp]; exact List.mem_append.2 (Or.inl hc))
  cases h1 : isBlankL (rstripL l) <;> cases h2 : isBlankL l <;>
    simp [h1, h2] at hiff ⊢

/-- Helper: dropping trailing blanks keeps a non-blank singleton. -/
theorem popTrailingBlanks_single (x : List Char) (h : isBlankL x = false) :
    popTrailingBlanks [x] = [x] := by
  simp [popTrailingBlanks, List.dropWhile, h]

/-- Helper: `strip` removes a whitespace prefix and a whitespace suffix. -/
theorem stripL_decomp (l : List Char) :
    ∃ a b, l = a ++ stripL l ++ b ∧
      (∀ c ∈ a, isPyWS c = true) ∧ (∀ c ∈ b, isPyWS c = true) := by
  obtain ⟨suf, hd, hs⟩ := rstripL_append (lstripL l)
  refine ⟨l.takeWhile isPyWS, suf, ?_, ?_, hs⟩
  · conv_lhs => rw [← List.takeWhile_append_dropWhile (p := isPyWS) (l := l)]
    rw [show l.dropWhile isPyWS = lstripL l from rfl, hd]
    rw [show rstripL (lstripL l) = stripL l from rfl, List.append_assoc]
  · intro c hc
    exact List.mem_takeWhile_imp hc

set_option maxRecDepth 4000 in
/-- Claim C2, amended.  `/*` has priority over `//` regardless of position:
on a line holding `/*` (and not opening a doc comment, processed outside
comment state) the code part kept by `remove_inline_comments` is everything
before the first `/*` — even when a string-aware `//` occurs earlier — and
only on lines without `/*` does the first string-aware `//` determine the
split. -/
theorem C2_slashStar_priority :
    (∀ (l : List Char) (i : Nat),
      startsL (cs "/**") (stripL l) = false →
      firstSubIdx (cs "/*") l = some i →
      containsL (cs "*/") l = false →
      (stripL (l.take i)).isEmpty = false →
      removeInlineComments [l] = [rstripL (l.take i), []]) ∧
    (∀ (l : List Char) (j : Nat),
      startsL (cs "/**") (stripL l) = false →
      containsL (cs "/*") l = false →
      findCommentIndex l = some j →
      containsL (cs "//") l = true →
      (stripL (l.take j)).isEmpty = false →
      removeInlineComments [l] = [rstripL (l.take j), []]) := by
  constructor
  · intro l i h1 h2 h3 h4
    have hc : containsL (cs "/*") l = true := by simp [containsL, h2]
    have hb : beforeFirstSub (cs "/*") l = l.take i := by simp [beforeFirstSub, h2]
    have hblank : isBlankL (rstripL (l.take i)) = false := by
      rw [isBlankL_rstripL]; exact h4
    have h4n : ¬ stripL (l.take i) = [] := by
      intro hcon; rw [hcon] at h4; simp at h4
    have hstep : (List.foldl processRemLine rInit [l]).acc = [rstripL (l.take i)] := by
      simp only [List.foldl, processRemLine, handleBlockCommentStart, rInit, hc, h1, h3, hb]
      simp [h4, h4n]
    simp only [removeInlineComments, hstep, popTrailingBlanks_single _ hblank]
    simp
  · intro l j h0 h1 h2 h3 h4
    have hblank : isBlankL (rstripL (l.take j)) = false := by
      rw [isBlankL_rstripL]; exact h4
    have hblank2 : ¬ stripL (rstripL (l.take j)) = [] := by
      intro hcon
      have : isBlankL (rstripL (l.take j)) = true := by
        unfold isBlankL; rw [hcon]; rfl
      rw [this] at hblank; exact Bool.noConfusion hblank
    have hstep : (List.foldl processRemLine rInit [l]).acc = [rstripL (l.take j)] := by
      simp only [List.foldl, processRemLine, handleLineComment, rInit, h0, h1, h2, h3]
      simp [h2, hblank2]
    simp only [removeInlineComments, hstep, popTrailingBlanks_single _ hblank]
    simp

/-- Witness for amended C2: on `a; // b /* c` the kept code part is
everything before `/*` (index 8), not before the earlier `//`; on the
`/*`-free line `x; // y` the split happens at the string-aware `//`
(index 3). -/
theorem C2_slashStar_priority_witness :
    removeInlineComments [cs "a; // b /* c"] =
      [rstripL ((cs "a; // b /* c").take 8), []] ∧
    removeInlineComments [cs "x; // y"] = [rstripL ((cs "x; // y").take 3), []] :=
  ⟨C2_slashStar_priority.1 (cs "a; // b /* c") 8
      (by decide) (by decide) (by decide) (by decide),
   C2_slashStar_priority.2 (cs "x; // y") 3
      (by decide) (by decide) (by decide) (by decide) (by decide)⟩

/-- Counterexample to C2 as stated: on `a; // b /* c` the earliest marker
is the `//` at index 3, so the claim requires everything from index 3 to be
comment; but the code removes from the `/*` at index 8 instead, keeping
`a; // b` — a code part that still holds the earlier marker. -/
theorem C2_counterexample :
    specEarliestMarker (cs "a; // b /* c") = some 3 ∧
    firstSubIdx (cs "/*") (cs "a; // b /* c") = some 8 ∧
    removeInlineComments [cs "a; // b /* c"] = [cs "a; // b", []] ∧
    containsL (cs "//") (cs "a; // b") = true := by decide

/-- Claim C3, amended: the split is positional and loses only whitespace.
When the scan records `(code_before, content)` for a line, the line is the
code part and the comment part in that order, interleaved with
whitespace-only segments (the parts are stripped by the source, so exact
concatenation fails, but nothing except whitespace is lost). -/
theorem C3_split_reconstructs_up_to_ws :
    ∀ (l cpart mpart : List Char),
      singleLineSplit l = some (cpart, mpart) →
      ∃ w1 w2 w3, l = w1 ++ cpart ++ w2 ++ mpart ++ w3 ∧
        (∀ c ∈ w1, isPyWS c = true) ∧ (∀ c ∈ w2, isPyWS c = true) ∧
        (∀ c ∈ w3, isPyWS c = true) := by
  intro l cpart mpart h
  rw [singleLineSplit] at h
  cases hf : findCommentIndex l with
  | none => rw [hf] at h; simp at h
  | some i =>
    rw [hf] at h
    simp only [Option.some.injEq, Prod.mk.injEq] at h
    obtain ⟨hc, hm⟩ := h
    obtain ⟨a1, b1, hd1, ha1, hb1⟩ := stripL_decomp (l.take i)
    obtain ⟨a2, b2, hd2, ha2, hb2⟩ := stripL_decomp (l.drop i)
    refine ⟨a1, b1 ++ a2, b2, ?_, ha1, ?_, hb2⟩
    · conv_lhs => rw [← List.take_append_drop i l]
      rw [hd1, hd2, ← hc, ← hm]
      simp [List.append_assoc]
    · intro c hc2
      rcases List.mem_append.1 hc2 with hx | hx
      · exact hb1 c hx
      · exact ha2 c hx

/-- Witness for amended C3 at `  x; // c`: the recorded parts are `x;` and
`// c`, and the line is recovered from them up to whitespace. -/
theorem C3_split_reconstructs_up_to_ws_witness :
    singleLineSplit (cs "  x; // c") = some (cs "x;", cs "// c") ∧
    ∃ w1 w2 w3, cs "  x; // c" = w1 ++ cs "x;" ++ w2 ++ cs "// c" ++ w3 ∧
      (∀ c ∈ w1, isPyWS c = true) ∧ (∀ c ∈ w2, isPyWS c = true) ∧
      (∀ c ∈ w3, isPyWS c = true) :=
  ⟨by decide,
   C3_split_reconstructs_up_to_ws (cs "  x; // c") (cs "x;") (cs "// c") (by decide)⟩

/-- Counterexample to C3 as stated: the scan of `  x; // c` records the
stripped parts `x;` and `// c`, whose concatenation is `x;// c`, not the
original line — the round trip loses the whitespace around the split. -/
theorem C3_counterexample :
    singleLineSplit (cs "  x; // c") = some (cs "x;", cs "// c") ∧
    cs "x;" ++ cs "// c" ≠ cs "  x; // c" := by decide


/-- Helper: peeling the first line off the cumulative depth. -/
theorem cumD_split (lines : List (List Char)) {i j : Nat} (h : i ≤ j) :
    cumD lines i j = braceDelta (lines.getD i []) + cumD lines (i + 1) j := by
  unfold cumD
  have h1 : j + 1 - i = (j - i) + 1 := by omega
  have h2 : j + 1 - (i + 1) = j - i := by omega
  rw [h1, h2]
  rfl

/-- Helper: the one-line cumulative depth. -/
theorem cumD_self (lines : List (List Char)) (i : Nat) :
    cumD lines i i = braceDelta (lines.getD i []) := by
  unfold cumD
  have h1 : i + 1 - i = 1 := by omega
  rw [h1]
  simp [sumDeltaGo]

/-- Helper: peeling the first line off the open-brace test. -/
theorem anyOpenB_split (lines : List (List Char)) {i j : Nat} (h : i ≤ j) :
    anyOpenB lines i j =
      (decide (0 < (lines.getD i []).count '{') || anyOpenB lines (i + 1) j) := by
  unfold anyOpenB
  have h1 : j + 1 - i = (j - i) + 1 := by omega
  have h2 : j + 1 - (i + 1) = j - i := by omega
  rw [h1, h2]
  rfl

/-- Helper: the one-line open-brace test. -/
theorem anyOpenB_self (lines : List (List Char)) (i : Nat) :
    anyOpenB lines i i = decide (0 < (lines.getD i []).count '{') := by
  unfold anyOpenB
  have h1 : i + 1 - i = 1 := by omega
  rw [h1]
  simp [anyOpenGo]

/-- Helper: when no line from `i` on ever both has the body started and the
cumulative depth back at (or below) zero, the span loop returns `none` —
the exact condition of a declaration whose braces never re-balance. -/
theorem amflLoop_none (lines : List (List Char)) (startL : Nat) (mname mline : List Char) :
    ∀ (fuel i : Nat) (bc : Int) (started : Bool) (total code : Nat),
      (∀ j, j < lines.length → i ≤ j →
        ¬((started || anyOpenB lines i j) = true ∧ bc + cumD lines i j ≤ 0)) →
      amflLoop lines startL mname mline fuel i bc started total code = none := by
  intro fuel
  induction fuel with
  | zero => intro i bc started total code _; rfl
  | succ fuel ih =>
    intro i bc started total code hyp
    rw [amflLoop]
    cases hg : lines.get? i with
    | none => rfl
    | some line =>
      simp only
      have hlen : i < lines.length := (List.get?_eq_some.1 hg).1
      have hgetD : lines.getD i [] = line := by
        rw [List.getD_eq_get?, hg]; rfl
      have hguard : ¬ ((started || decide (0 < line.count '{')) &&
          decide (bc + (line.count '{' : Int) - (line.count '}' : Int) ≤ 0)) = true := by
        intro hcon
        rw [Bool.and_eq_true] at hcon
        apply hyp i hlen (le_refl i)
        rw [anyOpenB_self, cumD_self, hgetD]
        refine ⟨hcon.1, ?_⟩
        have := of_decide_eq_true hcon.2
        unfold braceDelta
        omega
      rw [if_neg hguard]
      apply ih
      intro j hjlen hij
      have hij0 : i ≤ j := by omega
      intro hcon
      apply hyp j hjlen hij0
      rw [anyOpenB_split lines hij0, cumD_split lines hij0, hgetD]
      constructor
      · rw [← Bool.or_assoc]
        exact hcon.1
      · have heq : bc + (braceDelta line + cumD lines (i + 1) j) =
            bc + (line.count '{' : Int) - (line.count '}' : Int) +
              cumD lines (i + 1) j := by
          unfold braceDelta; ring
        rw [heq]
        exact hcon.2

/-- Helper: when line `k` is the first line at which the body has started
and the cumulative depth is back at (or below) zero, the span loop stops
exactly there and reports `endLine = k + 1`. -/
theorem amflLoop_finds (lines : List (List Char)) (startL : Nat)
    (mname mline : List Char) (k : Nat) :
    ∀ (fuel i : Nat) (bc : Int) (started : Bool) (total code : Nat),
      i ≤ k → k < lines.length → k + 1 - i ≤ fuel →
      ((started || anyOpenB lines i k) = true ∧ bc + cumD lines i k ≤ 0) →
      (∀ j, i ≤ j → j < k →
        ¬((started || anyOpenB lines i j) = true ∧ bc + cumD lines i j ≤ 0)) →
      ∃ r, amflLoop lines startL mname mline fuel i bc started total code = some r ∧
        r.endLine = k + 1 := by
  intro fuel
  induction fuel with
  | zero => intro i bc started total code hik hklen hfuel _ _; omega
  | succ fuel ih =>
    intro i bc started total code hik hklen hfuel hQ hmin
    have hilen : i < lines.length := by omega
    rw [amflLoop]
    cases hg : lines.get? i with
    | none =>
      exfalso
      have := List.get?_eq_none.1 hg
      omega
    | some line =>
      simp only
      have hgetD : lines.getD i [] = line := by
        rw [List.getD_eq_get?, hg]; rfl
      by_cases hik2 : i = k
      · subst hik2
        have hguard : ((started || decide (0 < line.count '{')) &&
            decide (bc + (line.count '{' : Int) - (line.count '}' : Int) ≤ 0)) = true := by
          rw [anyOpenB_self, cumD_self, hgetD] at hQ
          rw [Bool.and_eq_true]
          refine ⟨hQ.1, ?_⟩
          apply decide_eq_true
          have := hQ.2
          unfold braceDelta at this
          omega
        rw [if_pos hguard]
        exact ⟨_, rfl, rfl⟩
      · have hik3 : i < k := by omega
        have hguard : ¬ ((started || decide (0 < line.count '{')) &&
            decide (bc + (line.count '{' : Int) - (line.count '}' : Int) ≤ 0)) = true := by
          intro hcon
          rw [Bool.and_eq_true] at hcon
          apply hmin i (le_refl i) hik3
          rw [anyOpenB_self, cumD_self, hgetD]
          refine ⟨hcon.1, ?_⟩
          have := of_decide_eq_true hcon.2
          unfold braceDelta
          omega
        rw [if_neg hguard]
        obtain ⟨hQ1, hQ2⟩ := hQ
        rw [anyOpenB_split lines (le_of_lt hik3), hgetD] at hQ1
        rw [cumD_split lines (le_of_lt hik3), hgetD] at hQ2
        apply ih (i + 1) _ _ _ _ (by omega) hklen (by omega)
        · constructor
          · rw [Bool.or_assoc]
            exact hQ1
          · have heq : bc + (line.count '{' : Int) - (line.count '}' : Int) +
                cumD lines (i + 1) k = bc + (braceDelta line + cumD lines (i + 1) k) := by
              unfold braceDelta; ring
            rw [heq]
            exact hQ2
        · intro j hj1 hj2 hcon
          apply hmin j (by omega) hj2
          rw [anyOpenB_split lines (by omega : i ≤ j), cumD_split lines (by omega : i ≤ j),
            hgetD]
          constructor
          · rw [← Bool.or_assoc]
            exact hcon.1
          · have heq : bc + (braceDelta line + cumD lines (i + 1) j) =
                bc + (line.count '{' : Int) - (line.count '}' : Int) +
                  cumD lines (i + 1) j := by
              unfold braceDelta; ring
            rw [heq]
            exact hcon.2

/-- Claim C4: for a declaration at line `i` whose body is correctly nested
— some line up to `k` opens a brace, cumulative depth (counted from `i`,
relative to the pre-declaration baseline 0) returns to 0 at line `k`, and
`k` is the first line where the started body reaches depth ≤ 0 — the
produced MethodSpan ends exactly at line `k` (1-based `k + 1`).  In
particular nested inner blocks, which keep the depth above 0, never close
the span. -/
theorem C4_endLine_first_return (lines : List (List Char)) (i k : Nat) (nm : List Char)
    (hik : i ≤ k) (hklen : k < lines.length)
    (hname : extractMethodName (stripL (lines.getD i [])) = some nm)
    (hopen : anyOpenB lines i k = true)
    (hzero : cumD lines i k = 0)
    (hfirst : ∀ j, j < k → i ≤ j →
      ¬(anyOpenB lines i j = true ∧ cumD lines i j ≤ 0)) :
    ∃ r, analyzeMethodFromLine lines i = some r ∧ r.endLine = k + 1 := by
  have hilen : i < lines.length := by omega
  have hg : lines.get? i = some (lines.getD i []) := by
    rw [List.getD_eq_get?]
    cases hx : lines.get? i with
    | none =>
      exfalso
      have := List.get?_eq_none.1 hx
      omega
    | some v => rfl
  rw [analyzeMethodFromLine, hg]
  simp only
  rw [hname]
  have := amflLoop_finds lines i nm (stripL (lines.getD i [])) k lines.length i 0 false 0 0
    hik hklen (by omega) ?_ ?_
  · exact this
  · constructor
    · simpa using hopen
    · rw [hzero]
      omega
  · intro j hj1 hj2 hcon
    apply hfirst j hj2 hj1
    constructor
    · simpa using hcon.1
    · have := hcon.2
      simpa using this

/-- Witness for C4: in the nested-brace file (`function f` containing an
`if` block) the span closes at the final line 5, not at the inner block's
closing brace on line 4. -/
theorem C4_endLine_first_return_witness :
    ∃ r, analyzeMethodFromLine nestedBraceFile 0 = some r ∧ r.endLine = 4 + 1 :=
  C4_endLine_first_return nestedBraceFile 0 4 (cs "f") (by decide) (by decide)
    (by decide) (by decide) (by decide) (by decide)

/-- Counterexample to C5 as stated: the `}` at position 13 of line 2 of
`stringBraceFile` sits inside a string literal (the quote state there is an
open `"`), yet it contributes `-1` to the tracked depth, so the span is
closed at line 2 — although the depth counted only over outside-string
positions (as the claim requires) stays positive until the final line 4,
the line-1 contribution being entirely inside the string. -/
theorem C5_counterexample :
    quoteStateAt (stringBraceFile.getD 1 []) 13 = some '"' ∧
    braceDelta (stringBraceFile.getD 1 []) = -1 ∧
    analyzeMethodFromLine stringBraceFile 0 =
      some ⟨cs "f", 1, 2, 2, 2, cs "function f(): void \x7b"⟩ ∧
    (braceSplitDelta (stringBraceFile.getD 0 [])).1 +
        (braceSplitDelta (stringBraceFile.getD 1 [])).1 +
        (braceSplitDelta (stringBraceFile.getD 2 [])).1 +
        (braceSplitDelta (stringBraceFile.getD 3 [])).1 = 0 ∧
    (braceSplitDelta (stringBraceFile.getD 1 [])).2 = -1 := by decide

/-- Claim C5, amended: the depth update reads the entire raw line — it is
the sum of the brace contributions of the positions outside string literals
and of those inside them, so braces inside strings (and comments) do change
the tracked depth. -/
theorem C5_braceDelta_counts_raw_line :
    ∀ l : List Char, braceDelta l = (braceSplitDelta l).1 + (braceSplitDelta l).2 := by
  have main : ∀ (l : List Char) (st prev : Option Char),
      (braceSplitGo st prev l).1 + (braceSplitGo st prev l).2 = braceDelta l := by
    intro l
    induction l with
    | nil => intro st prev; simp [braceSplitGo, braceDelta]
    | cons c rest ih =>
      intro st prev
      have hd : braceDelta (c :: rest) =
          (if c = '{' then (1 : Int) else if c = '}' then -1 else 0) + braceDelta rest := by
        unfold braceDelta
        rw [List.count_cons, List.count_cons]
        by_cases h1 : c = '{' <;> by_cases h2 : c = '}' <;>
          simp [h1, h2] <;> push_cast <;> ring
      rw [hd]
      simp only [braceSplitGo]
      by_cases hst : st = none
      · rw [if_pos hst]
        have := ih (quoteStepC st prev c) (some c)
        simp only at this ⊢
        omega
      · rw [if_neg hst]
        have := ih (quoteStepC st prev c) (some c)
        simp only at this ⊢
        omega
  intro l
  exact (main l none none).symm

/-- Claim C6: when a declaration's braces never re-balance before
end-of-file (no line from `i` on has the started body back at depth ≤ 0),
the pending span is discarded (`analyze_method_from_line` returns `none`)
and the driver loop continues at the next line with an unchanged
accumulator, so later declarations still produce spans. -/
theorem C6_unbalanced_discarded (lines : List (List Char)) (i : Nat)
    (hi : i < lines.length)
    (h : ∀ j, j < lines.length → i ≤ j →
      ¬(anyOpenB lines i j = true ∧ cumD lines i j ≤ 0)) :
    analyzeMethodFromLine lines i = none ∧
    ∀ (fuel : Nat) (acc : List MethodInfo),
      amlLoop lines (fuel + 1) i acc = amlLoop lines fuel (i + 1) acc := by
  have hnone : analyzeMethodFromLine lines i = none := by
    rw [analyzeMethodFromLine]
    cases hg : lines.get? i with
    | none => rfl
    | some l0 =>
      simp only
      cases hn : extractMethodName (stripL l0) with
      | none => rfl
      | some nm =>
        apply amflLoop_none
        intro j hj hij hcon
        apply h j hj hij
        constructor
        · simpa using hcon.1
        · simpa using hcon.2
  refine ⟨hnone, ?_⟩
  intro fuel acc
  rw [amlLoop]
  cases hg : lines.get? i with
  | none =>
    exfalso
    have := List.get?_eq_none.1 hg
    omega
  | some line =>
    simp only
    by_cases hskip : skipCond (stripL line) = true
    · rw [if_pos hskip]
    · rw [if_neg hskip]
      by_cases hdecl : isMethodDeclaration (stripL line) lines i = true
      · rw [if_pos hdecl, hnone]
      · rw [if_neg hdecl]

/-- Witness for C6: in `unbalancedFile` the declaration `f` at line 1 never
re-balances, its span is discarded, and the driver moves on to line 2
(where `g` sits) with an unchanged accumulator. -/
theorem C6_unbalanced_discarded_witness :
    analyzeMethodFromLine unbalancedFile 0 = none ∧
    amlLoop unbalancedFile 3 0 [] = amlLoop unbalancedFile 2 1 [] := by
  have h := C6_unbalanced_discarded unbalancedFile 0 (by decide) (by decide)
  exact ⟨h.1, h.2 2 []⟩

/-- Claim C9: on the single-line input
`function foo(a: string, b: number): boolean { return a.length > b; }` the
declaration test fires, the span builder produces exactly the one span with
`codeLineCount = 1` (and `totalLines = 1`, closing on the same line), the
extracted name is `foo`, the parameter names are `a` then `b`, and the
return-type token is `boolean`.  (The long-method report then filters this
span out as not exceeding 14 lines; the claim is about what the scan
produces.) -/
theorem C9_single_line_scenario :
    isMethodDeclaration (stripL fooLine) [fooLine] 0 = true ∧
    analyzeMethodFromLine [fooLine] 0 = some ⟨cs "foo", 1, 1, 1, 1, fooLine⟩ ∧
    extractParams fooLine = [cs "a", cs "b"] ∧
    extractReturnType fooLine = cs "boolean" := by decide


/-- Helper: when every line that triggers the insertion heuristic is
recognized as already documented, the insertion loop copies the file
unchanged. -/
theorem jloop_no_insert (lines : List (List Char))
    (h : ∀ i, i < lines.length →
      shouldAddJsdoc (stripL (lines.getD i [])) lines i = true →
      hasJsdocAbove lines i = true) :
    ∀ (fuel i : Nat) (acc : List (List Char)) (ch : Nat),
      lines.length - i ≤ fuel →
      jloop lines fuel i acc ch = (acc ++ lines.drop i, ch) := by
  intro fuel
  induction fuel with
  | zero =>
    intro i acc ch hfuel
    have hle : lines.length ≤ i := by omega
    rw [jloop]
    simp [List.drop_eq_nil_of_le hle]
  | succ fuel ih =>
    intro i acc ch hfuel
    rw [jloop]
    cases hg : lines.get? i with
    | none =>
      have hle := List.get?_eq_none.1 hg
      simp [List.drop_eq_nil_of_le hle]
    | some line =>
      simp only
      have hgetD : lines.getD i [] = line := by
        rw [List.getD_eq_get?, hg]; rfl
      have hlen : i < lines.length := (List.get?_eq_some.1 hg).1
      have hcond : (shouldAddJsdoc (stripL line) lines i &&
          !hasJsdocAbove lines i) = false := by
        by_cases hs : shouldAddJsdoc (stripL line) lines i = true
        · have hdoc := h i hlen (by rw [hgetD]; exact hs)
          simp [hs, hdoc]
        · simp [Bool.eq_false_iff.2 hs]
      rw [hcond]
      simp only [Bool.false_eq_true, if_false]
      rw [ih (i + 1) (acc ++ [line]) ch (by omega)]
      have hdrop : lines.drop i = line :: lines.drop (i + 1) := by
        obtain ⟨hlt, hget⟩ := List.get?_eq_some.1 hg
        rw [List.drop_eq_getElem_cons hlt]
        rw [show lines[i] = lines.get ⟨i, hlt⟩ from rfl, hget]
      rw [hdrop]
      simp

/-- Claim C7, amended: a doc block is recognized only in its multi-line
form — the nearest non-blank line above the declaration must start with
`*/` and the walk over `*`-lines must end on a `/**` line.  On every file
in which each declaration matching the insertion heuristic carries such a
block, documentation insertion adds zero new blocks and leaves the file
unchanged (zero-block idempotence on documented files).  A doc block
written entirely on one line is not recognized (see the counterexample). -/
theorem C7_multiline_doc_suppresses (lines : List (List Char))
    (h : ∀ i, i < lines.length →
      shouldAddJsdoc (stripL (lines.getD i [])) lines i = true →
      hasJsdocAbove lines i = true) :
    addBasicJsdoc lines = (lines, 0) := by
  unfold addBasicJsdoc
  rw [jloop_no_insert lines h lines.length 0 [] 0 (by omega)]
  simp

/-- Witness for amended C7: the conventionally documented `doIt` file is
returned unchanged with zero insertions. -/
theorem C7_multiline_doc_suppresses_witness :
    addBasicJsdoc multiLineDocFile = (multiLineDocFile, 0) :=
  C7_multiline_doc_suppresses multiLineDocFile (by decide)

/-- Counterexample to C7 as stated: in `oneLineDocFile` the declaration on
line 2 has the doc block `/** Does x */` immediately above it (the
claim-side predicate `specDocAbove` holds) and triggers the insertion
heuristic, yet the pass inserts one new block and changes the file —
the single-line closing `*/` is never recognized. -/
theorem C7_counterexample :
    specDocAbove oneLineDocFile 1 = true ∧
    shouldAddJsdoc (stripL (oneLineDocFile.getD 1 [])) oneLineDocFile 1 = true ∧
    (addBasicJsdoc oneLineDocFile).2 = 1 ∧
    (addBasicJsdoc oneLineDocFile).1 ≠ oneLineDocFile := by decide


/-- Helper: appending a line preserves blank-adjacency-freedom when either
the new line is non-blank or the current last line is non-blank. -/
theorem noAdjBlanks_append_single (l : List (List Char)) (y : List Char)
    (hl : noAdjBlanks l = true)
    (hy : isBlankL y = false ∨ (∀ x, l.getLast? = some x → isBlankL x = false)) :
    noAdjBlanks (l ++ [y]) = true := by
  induction l with
  | nil => simp [noAdjBlanks]
  | cons a t ih =>
    cases t with
    | nil =>
      simp only [List.cons_append, List.nil_append, noAdjBlanks]
      rcases hy with h | h
      · simp [h, noAdjBlanks]
      · have ha := h a (by rfl)
        simp [ha, noAdjBlanks]
    | cons b t2 =>
      simp only [List.cons_append, noAdjBlanks] at hl ⊢
      rw [Bool.and_eq_true] at hl
      rw [Bool.and_eq_true]
      refine ⟨hl.1, ?_⟩
      have hy2 : isBlankL y = false ∨
          (∀ x, (b :: t2).getLast? = some x → isBlankL x = false) := by
        rcases hy with h | h
        · exact Or.inl h
        · right
          intro x hx
          exact h x (by rw [List.getLast?_cons_cons]; exact hx)
      exact ih hl.2 hy2

/-- Helper: blank-adjacency-freedom restricts to an initial segment. -/
theorem noAdjBlanks_of_append (l m : List (List Char))
    (h : noAdjBlanks (l ++ m) = true) : noAdjBlanks l = true := by
  induction l with
  | nil => rfl
  | cons a t ih =>
    cases t with
    | nil => rfl
    | cons b t2 =>
      simp only [List.cons_append, noAdjBlanks] at h ⊢
      rw [Bool.and_eq_true] at h
      rw [Bool.and_eq_true]
      exact ⟨h.1, ih h.2⟩

/-- Helper: the head surviving a `dropWhile` fails the predicate. -/
theorem head_dropWhile_false {α : Type} (p : α → Bool) (l : List α) (x : α)
    (h : (l.dropWhile p).head? = some x) : p x = false := by
  induction l with
  | nil => simp [List.dropWhile] at h
  | cons a t ih =>
    rw [List.dropWhile_cons] at h
    by_cases hp : p a = true
    · rw [if_pos hp] at h
      exact ih h
    · rw [if_neg hp] at h
      simp only [List.head?_cons, Option.some.injEq] at h
      rw [← h]
      exact Bool.eq_false_iff.2 hp

/-- Helper: dropping trailing blanks keeps a prefix of the list. -/
theorem popTrailingBlanks_decomp (l : List (List Char)) :
    ∃ suf, l = popTrailingBlanks l ++ suf := by
  refine ⟨(l.reverse.takeWhile isBlankL).reverse, ?_⟩
  have h := List.takeWhile_append_dropWhile (p := isBlankL) (l := l.reverse)
  calc l = l.reverse.reverse := (List.reverse_reverse l).symm
    _ = (l.reverse.takeWhile isBlankL ++ l.reverse.dropWhile isBlankL).reverse := by rw [h]
    _ = popTrailingBlanks l ++ (l.reverse.takeWhile isBlankL).reverse := by
        rw [List.reverse_append]; rfl

/-- Helper: after dropping trailing blanks, the last line (when any) is
non-blank. -/
theorem popTrailingBlanks_last (l : List (List Char)) :
    ∀ x, (popTrailingBlanks l).getLast? = some x → isBlankL x = false := by
  intro x hx
  unfold popTrailingBlanks at hx
  rw [List.getLast?_reverse] at hx
  exact head_dropWhile_false isBlankL l.reverse x hx

/-- Helper: outside doc-comment mode, one step of the rewriting loop keeps
the state out of doc-comment mode and never creates two adjacent blank
output lines (every blank line is appended only under the guard that the
previous kept line is non-blank). -/
theorem processRemLine_preserves (st : RState) (line : List Char)
    (hdoc : startsL (cs "/**") (stripL line) = false)
    (hj : st.inJsdoc = false) (hacc : noAdjBlanks st.acc = true) :
    (processRemLine st line).inJsdoc = false ∧
      noAdjBlanks (processRemLine st line).acc = true := by
  unfold processRemLine
  simp only [hdoc, hj, Bool.false_and, Bool.not_false, Bool.and_true]
  simp only [Bool.false_eq_true, if_false]
  by_cases hc : containsL (cs "/*") line = true
  · rw [if_pos hc]
    rcases hQ : handleBlockCommentStart line with ⟨newLine, inM⟩
    simp only [hQ]
    refine ⟨by trivial, ?_⟩
    split
    · rename_i hguard
      apply noAdjBlanks_append_single _ _ hacc
      left
      rw [isBlankL_rstripL]
      unfold isBlankL
      simpa using hguard
    · exact hacc
  · rw [if_neg hc]
    by_cases hm : st.inMlc = true
    · rw [if_pos hm]
      split
      · refine ⟨by trivial, ?_⟩
        simp only
        split
        · rename_i hguard
          apply noAdjBlanks_append_single _ _ hacc
          left
          rw [isBlankL_rstripL]
          unfold isBlankL
          simpa using hguard
        · exact hacc
      · exact ⟨by trivial, hacc⟩
    · rw [if_neg hm]
      rcases hP : handleLineComment line st.changes with ⟨line2, ch2⟩
      simp only [hP]
      constructor
      · split
        · trivial
        · split
          · trivial
          · split
            · trivial
            · trivial
      · split
        · rename_i hguard
          apply noAdjBlanks_append_single _ _ hacc
          left
          unfold isBlankL
          simpa using hguard
        · split
          · rename_i hguard2
            apply noAdjBlanks_append_single _ _ hacc
            right
            intro x hx
            rw [Bool.and_eq_true] at hguard2
            have hlast := hguard2.2
            rw [List.getLastD_eq_getLast?, hx] at hlast
            unfold isBlankL
            simpa using hlast
          · split
            · exact hacc
            · exact hacc

/-- Helper: the loop invariant of `processRemLine` over a whole
doc-comment-free file. -/
theorem foldl_processRemLine_inv (lines : List (List Char))
    (h : ∀ l ∈ lines, startsL (cs "/**") (stripL l) = false) :
    ∀ st : RState, st.inJsdoc = false → noAdjBlanks st.acc = true →
      (lines.foldl processRemLine st).inJsdoc = false ∧
        noAdjBlanks (lines.foldl processRemLine st).acc = true := by
  induction lines with
  | nil => intro st h1 h2; exact ⟨h1, h2⟩
  | cons l t ih =>
    intro st h1 h2
    have hl := h l (List.mem_cons_self l t)
    have step := processRemLine_preserves st l hl h1 h2
    exact ih (fun x hx => h x (List.mem_cons_of_mem l hx)) _ step.1 step.2

/-- Claim C10: the text rewritten by inline-comment stripping is
whitespace-normalized.  For files without doc-comment openers (so that
every output line is outside a preserved doc block — the scope in which
the claim applies, since inside preserved doc blocks lines are copied
verbatim) the output never holds two consecutive blank lines; and the
output is either empty, or a list of lines whose last real line is
non-blank followed by exactly one final empty line — so the newline-join
has no trailing blank lines and ends with exactly one trailing newline. -/
theorem C10_whitespace_normalized (lines : List (List Char))
    (h : ∀ l ∈ lines, startsL (cs "/**") (stripL l) = false) :
    noAdjBlanks (removeInlineComments lines) = true ∧
    (removeInlineComments lines = [] ∨
      ∃ pre, removeInlineComments lines = pre ++ [[]] ∧ pre ≠ [] ∧
        (∀ x, pre.getLast? = some x → isBlankL x = false)) := by
  have hinv := foldl_processRemLine_inv lines h rInit rfl rfl
  obtain ⟨suf, hdecomp⟩ :=
    popTrailingBlanks_decomp (lines.foldl processRemLine rInit).acc
  have hm : noAdjBlanks (popTrailingBlanks (lines.foldl processRemLine rInit).acc) = true := by
    apply noAdjBlanks_of_append _ suf
    rw [← hdecomp]
    exact hinv.2
  have hlast := popTrailingBlanks_last (lines.foldl processRemLine rInit).acc
  unfold removeInlineComments
  simp only
  by_cases hne : popTrailingBlanks (lines.foldl processRemLine rInit).acc = []
  · rw [if_neg (fun hcon => hcon hne), hne]
    exact ⟨rfl, Or.inl rfl⟩
  · rw [if_pos hne]
    constructor
    · exact noAdjBlanks_append_single _ _ hm (Or.inr hlast)
    · exact Or.inr ⟨_, rfl, hne, hlast⟩

/-- Witness for C10: a comment-free file with repeated blank lines is
rewritten with the blank runs collapsed, no trailing blanks, and one final
empty line. -/
theorem C10_whitespace_normalized_witness :
    noAdjBlanks (removeInlineComments blankRunsFile) = true ∧
    (removeInlineComments blankRunsFile = [] ∨
      ∃ pre, removeInlineComments blankRunsFile = pre ++ [[]] ∧ pre ≠ [] ∧
        (∀ x, pre.getLast? = some x → isBlankL x = false)) :=
  C10_whitespace_normalized blankRunsFile (by decide)

end Join
